import Mathlib

/-!
Shallow embedding of `src/sqlx-core/src/sqlite/statement.rs` (the SQLite
prepared-statement coordinator of sqlx) and proofs about it.

Conventions of the embedding:
* The native SQLite engine (`libsqlite3_sys`) is an external collaborator.
  Engine behaviour at the interface boundary is passed in as parameters
  (status codes, column lists, per-value bind results) or, where a claim
  depends on engine behaviour that the source only consumes, modelled from
  the spec in a definition whose doc comment says so.
* C `int` status codes are modelled as `Int`; text as `List Char` (byte
  offsets coincide with character offsets for the ASCII SQL in the
  concrete examples).
* Fallible Rust functions returning `crate::Result` are modelled with
  `Except` / `Option` values.
-/

namespace Sqlx

/-- The `SQLITE_OK` status code of libsqlite3. -/
def SQLITE_OK : Int := 0

/-- The `SQLITE_ROW` status code of libsqlite3. -/
def SQLITE_ROW : Int := 100

/-- The `SQLITE_DONE` status code of libsqlite3. -/
def SQLITE_DONE : Int := 101

/-- Return values from `Statement::step` (enum `Step` in the source). -/
inductive Step where
  /-- The statement has finished executing successfully. -/
  | Done : Step
  /-- Another row of output is available. -/
  | Row : Step
deriving DecidableEq, Repr

/-- Model of `SqliteError`: the diagnostic (code and message) read from the
connection handle by `SqliteError::from_connection`. -/
structure SqliteErrorModel where
  code : Int
  message : List Char
deriving DecidableEq, Repr

/-- Embedding of the status dispatch of `Statement::step`
(statement.rs lines 217-225): the engine's `sqlite3_step` returned
`status`; `diag` is the diagnostic that `SqliteError::from_connection`
reads from the connection at that moment.  `SQLITE_DONE` maps to
`Step::Done`, `SQLITE_ROW` to `Step::Row`, and every other status to an
error carrying `diag`. -/
def stepResult (status : Int) (diag : SqliteErrorModel) : Except SqliteErrorModel Step :=
  if status = SQLITE_DONE then Except.ok Step.Done
  else if status = SQLITE_ROW then Except.ok Step.Row
  else Except.error diag

/-- Embedding of `Statement::column_decltype` (statement.rs lines 156-170).
The engine's `sqlite3_column_decltype` is modelled by `decl`: `none` is a
NULL pointer (no declared type, e.g. an expression column), `some s` a
non-null C string `s`.  The source returns `None` for the NULL pointer and
`Some` of the string otherwise. -/
def column_decltype (decl : Nat → Option (List Char)) (index : Nat) : Option (List Char) :=
  match decl index with
  | none => none
  | some s => some s

end Sqlx

namespace Sqlx

/-- The engine calls a `Statement` can issue over its lifetime. -/
inductive EngineCall where
  /-- the `sqlite3_prepare_v3` call (in `Statement::new`). -/
  | prepareCall : EngineCall
  /-- one `sqlite3_bind_*` call at a 1-based parameter index. -/
  | bindCall (index : Nat) : EngineCall
  /-- the `sqlite3_step` call (submitted through the worker). -/
  | stepCall : EngineCall
  /-- the `sqlite3_reset` call. -/
  | resetCall : EngineCall
  /-- the `sqlite3_clear_bindings` call. -/
  | clearBindingsCall : EngineCall
  /-- a read-only metadata call (`sqlite3_column_count`,
  `sqlite3_column_name`, `sqlite3_column_decltype`,
  `sqlite3_bind_parameter_count`, `sqlite3_data_count`). -/
  | metaCall : EngineCall
  /-- the `sqlite3_finalize` call (only in `impl Drop for Statement`). -/
  | finalizeCall : EngineCall
deriving DecidableEq, Repr

/-- The operations a caller can perform on a live `Statement` after
`Statement::new`, abstracted to the engine calls each one issues. -/
inductive StmtOp where
  /-- a `Statement::bind` call, which issued binds at the given 1-based indices. -/
  | opBind (indices : List Nat) : StmtOp
  /-- a `Statement::step` call. -/
  | opStep : StmtOp
  /-- a `Statement::reset` call. -/
  | opReset : StmtOp
  /-- any metadata accessor. -/
  | opMeta : StmtOp
deriving DecidableEq, Repr

/-- Engine calls issued by one caller operation, per the source of
`Statement::bind`, `Statement::step`, `Statement::reset` and the metadata
accessors. -/
def opCalls : StmtOp → List EngineCall
  | StmtOp.opBind indices => indices.map EngineCall.bindCall
  | StmtOp.opStep => [EngineCall.stepCall]
  | StmtOp.opReset => [EngineCall.resetCall, EngineCall.clearBindingsCall]
  | StmtOp.opMeta => [EngineCall.metaCall]

/-- Embedding of the body of `impl Drop for Statement` (statement.rs lines
229-237): one `sqlite3_finalize` call whose status (`finalizeStatus`) is
discarded with `let _ = ...`; the function returns `()` and has no error
channel. -/
def dropStatement (finalizeStatus : Int) : List EngineCall × Unit :=
  ([EngineCall.finalizeCall], ())

/-- The full engine-call trace of one `Statement`'s lifetime: the
`sqlite3_prepare_v3` call and column-metadata reads of `Statement::new`,
then the calls of whatever operations the caller performed, then — exactly
when the owning scope ends — the calls of the `Drop` implementation.
`columnReads` is the number of metadata reads done by `Statement::new`
while building the column map. -/
def lifetimeCalls (columnReads : Nat) (ops : List StmtOp) (finalizeStatus : Int) :
    List EngineCall :=
  EngineCall.prepareCall :: List.replicate columnReads EngineCall.metaCall
    ++ (ops.map opCalls).flatten ++ (dropStatement finalizeStatus).1

end Sqlx

namespace Sqlx

/-- Outcome of `Statement::bind`: `bound` is the list of
`(1-based index, value)` pairs successfully bound (in bind order),
`remaining` the values never taken from the argument source, `result` the
Rust return value (`none` = `Ok(())`, `some e` = `Err(e)`). -/
structure BindOutcome (α : Type) where
  bound : List (Nat × α)
  remaining : List α
  result : Option SqliteErrorModel
deriving DecidableEq, Repr

/-- The loop of `Statement::bind` (statement.rs lines 179-189).
`e v i` models `value.bind(self, i)` for value `v` at 1-based index `i`
(`none` = engine accepted, `some err` = engine rejected).  `k` is the
number of loop iterations left (`params - index`), `index` the current
0-based loop variable, `args` the values still in the argument source.
The source iterates `index` over `0..params`, takes the next value if one
exists (else breaks with `Ok(())`), and binds it at `index + 1`,
propagating any bind error with `?`. -/
def bindLoop (e : α → Nat → Option SqliteErrorModel) :
    Nat → Nat → List α → BindOutcome α
  | 0, _, args => ⟨[], args, none⟩
  | _ + 1, _, [] => ⟨[], [], none⟩
  | k + 1, index, v :: rest =>
    match e v (index + 1) with
    | some err => ⟨[], rest, some err⟩
    | none =>
      let o := bindLoop e k (index + 1) rest
      ⟨(index + 1, v) :: o.bound, o.remaining, o.result⟩

/-- Embedding of `Statement::bind`: run the loop for `params` iterations
(`params` = `sqlite3_bind_parameter_count`, per `Statement::params`)
starting at index 0 over the argument source `args`. -/
def bindStatement (e : α → Nat → Option SqliteErrorModel) (params : Nat) (args : List α) :
    BindOutcome α :=
  bindLoop e params 0 args

/-- The effective value of parameter slot `j` after binding: the value
bound at `j` if any, otherwise `none`, modelling the engine default for an
unbound slot (treated as SQL NULL). -/
def slotValue (bound : List (Nat × α)) (j : Nat) : Option α :=
  (bound.find? (fun p => p.1 = j)).map Prod.snd

end Sqlx

namespace Sqlx

/-- The Unicode `White_Space` characters, i.e. those for which Rust's
`char::is_whitespace` (used by `str::trim`) returns true. -/
def rustIsWhitespace (c : Char) : Bool :=
  c = ' ' || (c.val ≥ 0x9 && c.val ≤ 0xD) || c.val = 0x85 || c.val = 0xA0 ||
    c.val = 0x1680 || (c.val ≥ 0x2000 && c.val ≤ 0x200A) || c.val = 0x2028 ||
    c.val = 0x2029 || c.val = 0x202F || c.val = 0x205F || c.val = 0x3000

/-- Rust `str::trim` semantics: remove leading and trailing whitespace. -/
def rustTrim (s : List Char) : List Char :=
  ((s.dropWhile rustIsWhitespace).reverse.dropWhile rustIsWhitespace).reverse

/-- Embedding of the caller-cursor update on the success path of
`Statement::new` (statement.rs lines 90-93):
`let tail = ...; *query = &query[tail..].trim();` — drop the engine-reported
`tail` prefix of the source text, then apply Rust `str::trim`. -/
def advanceQuery (query : List Char) (tail : Nat) : List Char :=
  rustTrim (query.drop tail)

end Sqlx

namespace Sqlx

/-- The `HashMap::insert` semantics on an association-list model of
`HashMap<String, usize>`: overwrite the value if the key is present,
otherwise add a new entry.  Keys stay pairwise distinct. -/
def hmInsert : List (List Char × Nat) → List Char → Nat → List (List Char × Nat)
  | [], k, v => [(k, v)]
  | (k1, v1) :: rest, k, v =>
    if k1 = k then (k, v) :: rest else (k1, v1) :: hmInsert rest k v

/-- The `HashMap::get` semantics on the association-list model. -/
def hmLookup : List (List Char × Nat) → List Char → Option Nat
  | [], _ => none
  | (k1, v1) :: rest, k => if k1 = k then some v1 else hmLookup rest k

/-- The `HashMap::len` size on the association-list model. -/
def hmLen (m : List (List Char × Nat)) : Nat :=
  m.length

/-- The column-map loop of `Statement::new` (statement.rs lines 107-110):
for each remaining column name (the engine-reported
`sqlite3_column_name(i)` strings, in index order starting at `i`), insert
`name ↦ i` into the map. -/
def insertColumns (m : List (List Char × Nat)) (i : Nat) :
    List (List Char) → List (List Char × Nat)
  | [] => m
  | n :: rest => insertColumns (hmInsert m n i) (i + 1) rest

/-- Embedding of the column-map construction of `Statement::new`: starting
from the empty map, insert `names[i] ↦ i` for `i` in `[0, columnCount)`,
where `names` is the engine-reported column-name list. -/
def buildColumns (names : List (List Char)) : List (List Char × Nat) :=
  insertColumns [] 0 names

/-- The greatest index at which a name occurs in the column list (the
specification-side notion of "the later index wins"). -/
def findLastIdx : List (List Char) → List Char → Option Nat
  | [], _ => none
  | x :: rest, n =>
    match findLastIdx rest n with
    | some j => some (j + 1)
    | none => if x = n then some 0 else none

end Sqlx

namespace Sqlx

/-- Modelled from the spec: the tail reported by the engine's compiler
(`sqlite3_prepare_v3`'s `pzTail`, an external collaborator whose code is
not part of this repository).  Per the spec, on success the tail "points
to the first byte past the end of the first SQL statement" of the source
text, which for `;`-separated batches is the byte after the first `;`
(or the end of input when no `;` terminates the statement). -/
def engineTail (q : List Char) : Nat :=
  match q.findIdx? (fun c => c = ';') with
  | some i => i + 1
  | none => q.length

/-- Successive compiles over one source buffer, fuelled: each round
compiles the current remainder `rest`, whose first character lies at
absolute offset `pos` of the original buffer, records the absolute tail
offset `pos + engineTail rest`, and advances the caller's cursor exactly
as `Statement::new` does (`advanceQuery`).  The new absolute start is the
absolute tail plus the leading whitespace the trim removed.  One unit of
fuel per round; `engineTail` consumes at least one character per round,
so fuel `rest.length` is always enough. -/
def splitTailsFuel : Nat → Nat → List Char → List Nat
  | 0, _, _ => []
  | fuel + 1, pos, rest =>
    if rest.isEmpty then []
    else
      let t := engineTail rest
      let dropped := rest.drop t
      (pos + t) ::
        splitTailsFuel fuel (pos + t + (dropped.takeWhile rustIsWhitespace).length)
          (rustTrim dropped)

/-- The absolute tail offsets recorded by successively compiling all the
statements of one source buffer. -/
def successiveTails (buf : List Char) : List Nat :=
  splitTailsFuel buf.length 0 buf

end Sqlx

namespace Sqlx

/-- Modelled from the spec: the state of a connection's `Worker` (the
worker module is not under `src/`; only `Statement::step` submits to it).
`submitted` is every unit of work ever submitted via `run`, in submission
order; `queue` the units not yet executed, in FIFO order; `executed` the
units the single worker thread has run, in execution order — the order in
which the underlying engine observes them. -/
structure WorkerState (α : Type) where
  submitted : List α
  queue : List α
  executed : List α
deriving DecidableEq, Repr

/-- Modelled from the spec: one transition of the Worker system.  Any task
may `submit` a unit of work at any time (it is appended to the FIFO
queue); the single worker thread `exec`utes the unit at the head of the
queue.  Because there is exactly one worker thread, executions are
sequential by construction: each `exec` transition runs one unit to
completion before the next begins. -/
inductive WorkerStep {α : Type} : WorkerState α → WorkerState α → Prop where
  | submit (s q e : List α) (u : α) :
      WorkerStep ⟨s, q, e⟩ ⟨s ++ [u], q ++ [u], e⟩
  | exec (s q e : List α) (u : α) :
      WorkerStep ⟨s, u :: q, e⟩ ⟨s, q, e ++ [u]⟩

/-- The Worker states reachable from the initial (empty) state. -/
def WorkerReachable {α : Type} (w : WorkerState α) : Prop :=
  Relation.ReflTransGen WorkerStep ⟨[], [], []⟩ w

end Sqlx

namespace Sqlx

/-- No caller operation on a live `Statement` ever issues `sqlite3_finalize`:
the only call site of `sqlite3_finalize` in the source is the `Drop` impl. -/
theorem finalize_not_in_opCalls (op : StmtOp) : EngineCall.finalizeCall ∉ opCalls op := by
  cases op with
  | opBind indices =>
    intro h
    obtain ⟨i, _, hi⟩ := List.mem_map.mp h
    exact EngineCall.noConfusion hi
  | opStep => intro h; simp [opCalls] at h
  | opReset => intro h; simp [opCalls] at h
  | opMeta => intro h; simp [opCalls] at h

/-- C1: over a `Statement`'s whole lifetime — whatever operations were
performed (compile-only, bind-only, mid-row-iteration, after `Done`) and
however many error paths were taken — exactly one `sqlite3_finalize` is
issued against the native statement; it is the very last engine call,
issued when the owning scope ends (the `Drop` impl); and the status of the
finalize call is discarded, so a release error can never surface to the
caller (`dropStatement` returns `()` unconditionally). -/
theorem stmt_finalized_exactly_once (columnReads : Nat) (ops : List StmtOp)
    (finalizeStatus : Int) :
    (lifetimeCalls columnReads ops finalizeStatus).count EngineCall.finalizeCall = 1 ∧
    (lifetimeCalls columnReads ops finalizeStatus).getLast? = some EngineCall.finalizeCall ∧
    (dropStatement finalizeStatus).2 = () := by
  refine ⟨?_, ?_, rfl⟩
  · have h2 : ((ops.map opCalls).flatten).count EngineCall.finalizeCall = 0 := by
      rw [List.count_eq_zero]
      intro hmem
      obtain ⟨l, hl, hml⟩ := List.mem_flatten.mp hmem
      obtain ⟨op, _, rfl⟩ := List.mem_map.mp hl
      exact finalize_not_in_opCalls op hml
    simp [lifetimeCalls, dropStatement, List.count_replicate, h2]
  · show (EngineCall.prepareCall ::
      (List.replicate columnReads EngineCall.metaCall ++ (ops.map opCalls).flatten ++
        [EngineCall.finalizeCall])).getLast? = some EngineCall.finalizeCall
    rw [← List.cons_append, List.getLast?_concat]

/-- C2: the call `Statement::step` returns `Done` exactly when the engine's
`sqlite3_step` returned `SQLITE_DONE`, `Row` exactly when it returned
`SQLITE_ROW`, and for every other status it returns an execution error
carrying the diagnostic read from the connection at the moment of
failure. -/
theorem step_status_dispatch (status : Int) (diag : SqliteErrorModel) :
    (stepResult status diag = Except.ok Step.Done ↔ status = SQLITE_DONE) ∧
    (stepResult status diag = Except.ok Step.Row ↔ status = SQLITE_ROW) ∧
    (status ≠ SQLITE_DONE → status ≠ SQLITE_ROW → stepResult status diag = Except.error diag) := by
  by_cases h1 : status = SQLITE_DONE
  · subst h1
    refine ⟨by simp [stepResult], ?_, fun h _ => absurd rfl h⟩
    rw [show stepResult SQLITE_DONE diag = Except.ok Step.Done from by simp [stepResult]]
    constructor
    · intro h; exact absurd h (by simp)
    · intro h; exact absurd h (by decide)
  · by_cases h2 : status = SQLITE_ROW
    · subst h2
      refine ⟨?_, by simp [stepResult, SQLITE_ROW, SQLITE_DONE], fun _ h => absurd rfl h⟩
      rw [show stepResult SQLITE_ROW diag = Except.ok Step.Row from by
        simp [stepResult, SQLITE_ROW, SQLITE_DONE]]
      constructor
      · intro h; exact absurd h (by simp)
      · intro h; exact absurd h h1
    · have hres : stepResult status diag = Except.error diag := by
        simp [stepResult, h1, h2]
      refine ⟨?_, ?_, fun _ _ => hres⟩
      · rw [hres]; constructor
        · intro h; exact absurd h (by simp)
        · intro h; exact absurd h h1
      · rw [hres]; constructor
        · intro h; exact absurd h (by simp)
        · intro h; exact absurd h h2

/-- C10: the accessor `Statement::column_decltype` yields `None` exactly when the engine
reports a NULL declared type for the column, and the declared-type string
otherwise — it neither fails nor substitutes an empty string for NULL. -/
theorem column_decltype_nullable (decl : Nat → Option (List Char)) (index : Nat) :
    (column_decltype decl index = none ↔ decl index = none) ∧
    (∀ s, decl index = some s → column_decltype decl index = some s) := by
  unfold column_decltype
  cases h : decl index with
  | none => simp
  | some s => simp

/-- Witness for `column_decltype_nullable` at concrete engine behaviour:
a NULL decltype (expression column) yields `none`; a declared type
`"INT"` is passed through. -/
theorem column_decltype_nullable_witness :
    column_decltype (fun _ => none) 0 = none ∧
    column_decltype (fun _ => some ['I', 'N', 'T']) 0 = some ['I', 'N', 'T'] :=
  ⟨(column_decltype_nullable (fun _ => none) 0).1.mpr rfl,
   (column_decltype_nullable (fun _ => some ['I', 'N', 'T']) 0).2 _ rfl⟩

end Sqlx

namespace Sqlx

/-- The head of `dropWhile p l`, when it exists, does not satisfy `p`. -/
theorem head?_dropWhile_neg {α : Type} (p : α → Bool) (l : List α) (c : α)
    (h : (l.dropWhile p).head? = some c) : p c = false := by
  induction l with
  | nil => simp [List.dropWhile] at h
  | cons x xs ih =>
    by_cases hp : p x
    · rw [List.dropWhile_cons_of_pos hp] at h
      exact ih h
    · rw [List.dropWhile_cons_of_neg hp] at h
      simp only [List.head?_cons, Option.some.injEq] at h
      subst h
      exact Bool.eq_false_iff.mpr hp

/-- Removing the trailing run of `p`-elements splits a list into the kept
part and the removed part. -/
theorem trimEnd_split {α : Type} (p : α → Bool) (l : List α) :
    l = (l.reverse.dropWhile p).reverse ++ (l.reverse.takeWhile p).reverse := by
  conv_lhs => rw [← List.reverse_reverse l,
    ← List.takeWhile_append_dropWhile (p := p) (l := l.reverse)]
  rw [List.reverse_append]

/-- Applying `rustTrim` splits a list into the removed leading whitespace, the kept
middle, and the removed trailing whitespace. -/
theorem rustTrim_split (l : List Char) :
    l = l.takeWhile rustIsWhitespace ++ rustTrim l ++
        ((l.dropWhile rustIsWhitespace).reverse.takeWhile rustIsWhitespace).reverse := by
  conv_lhs => rw [← List.takeWhile_append_dropWhile (p := rustIsWhitespace) (l := l)]
  rw [List.append_assoc]
  congr 1
  exact trimEnd_split rustIsWhitespace (l.dropWhile rustIsWhitespace)

/-- C3 counterexample: for source text `"X; A "` with engine-reported tail 2
(just past the compiled `"X;"`), the code's `str::trim` also removes the
TRAILING space of the remainder: the caller sees `"A"`, not the suffix with
only its leading whitespace removed (`"A "`). -/
theorem advanceQuery_ne_leading_only_trim :
    advanceQuery ['X', ';', ' ', 'A', ' '] 2 ≠
      (['X', ';', ' ', 'A', ' '].drop 2).dropWhile rustIsWhitespace := by
  decide

/-- C3 (amended): for every source text on which compile succeeds, the
caller's cursor is advanced to the engine-reported tail and the remainder
is then trimmed of whitespace at BOTH ends (Rust `str::trim`): the
remaining text seen by the caller is the uncompiled suffix with leading
AND trailing whitespace removed — only whitespace is discarded around it,
and what remains neither starts nor ends with whitespace. -/
theorem advanceQuery_trims_both_ends (query : List Char) (tail : Nat) :
    ∃ pre post,
      query.drop tail = pre ++ advanceQuery query tail ++ post ∧
      pre.all rustIsWhitespace ∧ post.all rustIsWhitespace ∧
      (∀ c, (advanceQuery query tail).head? = some c → rustIsWhitespace c = false) ∧
      (∀ c, (advanceQuery query tail).getLast? = some c → rustIsWhitespace c = false) := by
  refine ⟨(query.drop tail).takeWhile rustIsWhitespace,
    (((query.drop tail).dropWhile rustIsWhitespace).reverse.takeWhile rustIsWhitespace).reverse,
    rustTrim_split (query.drop tail), ?_, ?_, ?_, ?_⟩
  · rw [List.all_eq_true]
    intro c hc
    exact List.mem_takeWhile_imp hc
  · rw [List.all_eq_true]
    intro c hc
    rw [List.mem_reverse] at hc
    exact List.mem_takeWhile_imp hc
  · intro c hc
    have hadv : advanceQuery query tail =
        (((query.drop tail).dropWhile rustIsWhitespace).reverse.dropWhile
          rustIsWhitespace).reverse := rfl
    rw [hadv] at hc
    have hne : (((query.drop tail).dropWhile rustIsWhitespace).reverse.dropWhile
        rustIsWhitespace).reverse ≠ [] := by
      intro hnil
      rw [hnil] at hc
      exact Option.noConfusion hc
    have h1 : ((query.drop tail).dropWhile rustIsWhitespace).head? = some c := by
      rw [trimEnd_split rustIsWhitespace ((query.drop tail).dropWhile rustIsWhitespace),
          List.head?_append_of_ne_nil _ hne]
      exact hc
    exact head?_dropWhile_neg _ _ _ h1
  · intro c hc
    have hadv : advanceQuery query tail =
        (((query.drop tail).dropWhile rustIsWhitespace).reverse.dropWhile
          rustIsWhitespace).reverse := rfl
    rw [hadv, ← List.head?_reverse, List.reverse_reverse] at hc
    exact head?_dropWhile_neg _ _ _ hc

end Sqlx

namespace Sqlx

/-- The binds `Statement::bind`'s loop issues when it consumes the values
`args` starting at 0-based loop variable `i`: value `args[n]` is bound at
1-based parameter index `i + 1 + n`. -/
def expectedBinds {α : Type} (i : Nat) : List α → List (Nat × α)
  | [] => []
  | v :: rest => (i + 1, v) :: expectedBinds (i + 1) rest

/-- Membership in `expectedBinds`: `(j, v)` appears iff `j` is in the bound
index range and `v` is the argument at the matching source position. -/
theorem expectedBinds_mem {α : Type} (args : List α) :
    ∀ (i j : Nat) (v : α), ((j, v) ∈ expectedBinds i args ↔
      i + 1 ≤ j ∧ j ≤ i + args.length ∧ args[j - i - 1]? = some v) := by
  induction args with
  | nil =>
    intro i j v
    constructor
    · intro h
      exact absurd h (by simp [expectedBinds])
    · rintro ⟨h1, h2, _⟩
      simp only [List.length_nil] at h2
      omega
  | cons x rest ih =>
    intro i j v
    simp only [expectedBinds, List.mem_cons, List.length_cons]
    constructor
    · rintro (h | h)
      · rw [Prod.mk.injEq] at h
        obtain ⟨rfl, rfl⟩ := h
        refine ⟨Nat.le_refl _, by omega, ?_⟩
        rw [show i + 1 - i - 1 = 0 from by omega]
        exact List.getElem?_cons_zero
      · obtain ⟨h1, h2, h3⟩ := (ih (i + 1) j v).mp h
        refine ⟨by omega, by omega, ?_⟩
        rw [show j - i - 1 = (j - (i + 1) - 1) + 1 from by omega, List.getElem?_cons_succ]
        exact h3
    · rintro ⟨h1, h2, h3⟩
      by_cases hj : j = i + 1
      · subst hj
        rw [show i + 1 - i - 1 = 0 from by omega, List.getElem?_cons_zero] at h3
        left
        rw [Prod.mk.injEq]
        exact ⟨rfl, (Option.some.injEq _ _ ▸ h3).symm⟩
      · right
        rw [ih (i + 1) j v]
        refine ⟨by omega, by omega, ?_⟩
        rw [show j - i - 1 = (j - (i + 1) - 1) + 1 from by omega, List.getElem?_cons_succ] at h3
        exact h3

/-- When the argument source runs out at or before the last slot and the
engine accepts every supplied value, the bind loop binds all supplied
values in order and returns `Ok(())` (the `else break` arm). -/
theorem bindLoop_exhausted {α : Type} (e : α → Nat → Option SqliteErrorModel) :
    ∀ (args : List α) (k i : Nat),
      args.length ≤ k →
      (∀ (n : Nat) (v : α), args[n]? = some v → e v (i + 1 + n) = none) →
      bindLoop e k i args = ⟨expectedBinds i args, [], none⟩ := by
  intro args
  induction args with
  | nil =>
    intro k i _ _
    cases k with
    | zero => rfl
    | succ k => rfl
  | cons v rest ih =>
    intro k i hlen hacc
    cases k with
    | zero => simp at hlen
    | succ k =>
      have h0 : e v (i + 1) = none := by
        have h := hacc 0 v (by simp)
        rwa [show i + 1 + 0 = i + 1 from by omega] at h
      have hacc' : ∀ (n : Nat) (w : α), rest[n]? = some w → e w (i + 1 + 1 + n) = none := by
        intro n w hw
        have h := hacc (n + 1) w (by simpa using hw)
        rwa [show i + 1 + (n + 1) = i + 1 + 1 + n from by omega] at h
      have hlen' : rest.length ≤ k := by
        simp only [List.length_cons] at hlen
        omega
      simp only [bindLoop, h0, ih k (i + 1) hlen' hacc']
      rfl

/-- C4: for every compiled statement and every argument source exhausted
before all `paramCount()` slots are bound (each supplied value being
accepted by the engine), `Statement::bind` returns success, binding stops
silently at the point of exhaustion — exactly the supplied values are
bound, value `args[j-1]` at 1-based index `j` — and every unbound slot
`args.length < j ≤ params` is left at the engine default (SQL NULL). -/
theorem bind_exhaustion_is_ok {α : Type} (e : α → Nat → Option SqliteErrorModel)
    (params : Nat) (args : List α)
    (hlen : args.length < params)
    (hacc : ∀ (n : Nat) (v : α), args[n]? = some v → e v (n + 1) = none) :
    (bindStatement e params args).result = none ∧
    (bindStatement e params args).remaining = [] ∧
    (∀ (j : Nat) (v : α), ((j, v) ∈ (bindStatement e params args).bound ↔
      1 ≤ j ∧ j ≤ args.length ∧ args[j - 1]? = some v)) ∧
    (∀ j : Nat, args.length < j → j ≤ params →
      slotValue (bindStatement e params args).bound j = none) := by
  have hacc' : ∀ (n : Nat) (v : α), args[n]? = some v → e v (0 + 1 + n) = none := by
    intro n v h
    rw [show 0 + 1 + n = n + 1 from by omega]
    exact hacc n v h
  have hmain : bindStatement e params args = ⟨expectedBinds 0 args, [], none⟩ :=
    bindLoop_exhausted e args params 0 (Nat.le_of_lt hlen) hacc'
  rw [hmain]
  refine ⟨rfl, rfl, ?_, ?_⟩
  · intro j v
    have h := expectedBinds_mem args 0 j v
    simpa using h
  · intro j hj1 _
    simp only [slotValue, Option.map_eq_none']
    rw [List.find?_eq_none]
    rintro ⟨a, b⟩ hab
    obtain ⟨_, h2, _⟩ := (expectedBinds_mem args 0 a b).mp hab
    simp only [Nat.zero_add] at h2
    simp only [decide_eq_true_eq]
    omega

/-- Witness for `bind_exhaustion_is_ok`: 3 parameter slots, only two
arguments (10 and 20), an engine that accepts everything: `Ok(())`, value
20 bound at index 2, slot 3 left at the default. -/
theorem bind_exhaustion_is_ok_witness :
    (bindStatement (fun (_ : Nat) _ => none) 3 [10, 20]).result = none ∧
    ((2 : Nat), (20 : Nat)) ∈ (bindStatement (fun (_ : Nat) _ => none) 3 [10, 20]).bound ∧
    slotValue (bindStatement (fun (_ : Nat) _ => none) 3 [10, 20]).bound 3 = none := by
  have h := bind_exhaustion_is_ok (fun (_ : Nat) _ => none) 3 [10, 20]
    (by decide) (fun _ _ _ => rfl)
  exact ⟨h.1, (h.2.2.1 2 20).mpr (by decide), h.2.2.2 3 (by decide) (by decide)⟩

end Sqlx

namespace Sqlx

/-- When there are at most as many loop iterations as arguments and the
engine accepts the first `k` values, the bind loop consumes exactly `k`
values, binds them in order, leaves the rest unconsumed, and returns
`Ok(())` (the loop ends because `0..params` is exhausted). -/
theorem bindLoop_surplus {α : Type} (e : α → Nat → Option SqliteErrorModel) :
    ∀ (k : Nat) (args : List α) (i : Nat),
      k ≤ args.length →
      (∀ (n : Nat) (v : α), n < k → args[n]? = some v → e v (i + 1 + n) = none) →
      bindLoop e k i args = ⟨expectedBinds i (args.take k), args.drop k, none⟩ := by
  intro k
  induction k with
  | zero =>
    intro args i _ _
    cases args with
    | nil => rfl
    | cons v rest => rfl
  | succ k ih =>
    intro args i hlen hacc
    cases args with
    | nil => simp at hlen
    | cons v rest =>
      have h0 : e v (i + 1) = none := by
        have h := hacc 0 v (by omega) (by simp)
        rwa [show i + 1 + 0 = i + 1 from by omega] at h
      have hacc' : ∀ (n : Nat) (w : α), n < k → rest[n]? = some w →
          e w (i + 1 + 1 + n) = none := by
        intro n w hn hw
        have h := hacc (n + 1) w (by omega) (by simpa using hw)
        rwa [show i + 1 + (n + 1) = i + 1 + 1 + n from by omega] at h
      have hlen' : k ≤ rest.length := by
        simp only [List.length_cons] at hlen
        omega
      simp only [bindLoop, h0, ih rest (i + 1) hlen' hacc']
      rfl

/-- C9: when the argument source holds more values than `paramCount()`
(each of the first `params` values being accepted by the engine),
`Statement::bind` consumes exactly `params` values and stops: the excess
values are neither bound (the bound indices stop at `params`) nor consumed
(they are still in the source afterward), and no error is raised for the
surplus. -/
theorem bind_surplus_stops_at_params {α : Type} (e : α → Nat → Option SqliteErrorModel)
    (params : Nat) (args : List α)
    (hlen : params < args.length)
    (hacc : ∀ (n : Nat) (v : α), n < params → args[n]? = some v → e v (n + 1) = none) :
    (bindStatement e params args).result = none ∧
    (bindStatement e params args).remaining = args.drop params ∧
    (∀ (j : Nat) (v : α), ((j, v) ∈ (bindStatement e params args).bound ↔
      1 ≤ j ∧ j ≤ params ∧ args[j - 1]? = some v)) := by
  have hacc' : ∀ (n : Nat) (v : α), n < params → args[n]? = some v →
      e v (0 + 1 + n) = none := by
    intro n v hn h
    rw [show 0 + 1 + n = n + 1 from by omega]
    exact hacc n v hn h
  have hmain : bindStatement e params args =
      ⟨expectedBinds 0 (args.take params), args.drop params, none⟩ :=
    bindLoop_surplus e params args 0 (Nat.le_of_lt hlen) hacc'
  rw [hmain]
  refine ⟨rfl, rfl, ?_⟩
  intro j v
  have htl : (args.take params).length = params := by
    rw [List.length_take]
    omega
  have h := expectedBinds_mem (args.take params) 0 j v
  simp only [Nat.zero_add, Nat.sub_zero, htl] at h
  rw [h]
  constructor
  · rintro ⟨h1, h2, h3⟩
    refine ⟨h1, h2, ?_⟩
    rwa [List.getElem?_take_of_lt (by omega)] at h3
  · rintro ⟨h1, h2, h3⟩
    refine ⟨h1, h2, ?_⟩
    rwa [List.getElem?_take_of_lt (by omega)]

/-- Witness for `bind_surplus_stops_at_params`: 2 parameter slots, three
arguments; the third value 30 stays in the source and no error is
raised. -/
theorem bind_surplus_stops_at_params_witness :
    (bindStatement (fun (_ : Nat) _ => none) 2 [10, 20, 30]).result = none ∧
    (bindStatement (fun (_ : Nat) _ => none) 2 [10, 20, 30]).remaining = [30] ∧
    ¬ ((3 : Nat), (30 : Nat)) ∈ (bindStatement (fun (_ : Nat) _ => none) 2 [10, 20, 30]).bound := by
  have h := bind_surplus_stops_at_params (fun (_ : Nat) _ => none) 2 [10, 20, 30]
    (by decide) (fun _ _ _ _ => rfl)
  refine ⟨h.1, by rw [h.2.1]; rfl, ?_⟩
  intro hmem
  have := (h.2.2 3 30).mp hmem
  omega

end Sqlx

namespace Sqlx

/-- When the engine rejects the value at source position `f` (bound at
1-based index `i + 1 + f`) after accepting all earlier values, the bind
loop stops right there: the first `f` values stay bound, the failing value
has been consumed, and the engine's error is returned (the `?` operator). -/
theorem bindLoop_fail {α : Type} (e : α → Nat → Option SqliteErrorModel) :
    ∀ (f k i : Nat) (args : List α) (v : α) (err : SqliteErrorModel),
      f < k → args[f]? = some v → e v (i + 1 + f) = some err →
      (∀ (n : Nat) (w : α), n < f → args[n]? = some w → e w (i + 1 + n) = none) →
      bindLoop e k i args = ⟨expectedBinds i (args.take f), args.drop (f + 1), some err⟩ := by
  intro f
  induction f with
  | zero =>
    intro k i args v err hk hv herr _
    cases k with
    | zero => omega
    | succ k =>
      cases args with
      | nil => simp at hv
      | cons a rest =>
        have ha : a = v := by simpa using hv
        subst ha
        have herr' : e a (i + 1) = some err := by
          rwa [show i + 1 + 0 = i + 1 from by omega] at herr
        simp only [bindLoop, herr']
        rfl
  | succ f ih =>
    intro k i args v err hk hv herr hacc
    cases k with
    | zero => omega
    | succ k =>
      cases args with
      | nil => simp at hv
      | cons a rest =>
        have h0 : e a (i + 1) = none := by
          have h := hacc 0 a (by omega) (by simp)
          rwa [show i + 1 + 0 = i + 1 from by omega] at h
        have herr' : e v (i + 1 + 1 + f) = some err := by
          rwa [show i + 1 + (f + 1) = i + 1 + 1 + f from by omega] at herr
        have hacc' : ∀ (n : Nat) (w : α), n < f → rest[n]? = some w →
            e w (i + 1 + 1 + n) = none := by
          intro n w hn hw
          have h := hacc (n + 1) w (by omega) (by simpa using hw)
          rwa [show i + 1 + (n + 1) = i + 1 + 1 + n from by omega] at h
        have ihh := ih k (i + 1) rest v err (by omega) (by simpa using hv) herr' hacc'
        simp only [bindLoop, h0, ihh]
        rfl

/-- C7: if the engine rejects the argument value at some parameter index
(having accepted all earlier ones), `Statement::bind` stops immediately at
that index — nothing is bound at any later index — the engine's error
propagates to the caller as the result, and the values successfully bound
at earlier indices remain bound, with no implicit rollback: the bound list
still holds exactly values `args[j-1]` at 1-based indices `j ≤ f`. -/
theorem bind_failure_keeps_earlier_binds {α : Type} (e : α → Nat → Option SqliteErrorModel)
    (params : Nat) (args : List α) (f : Nat) (v : α) (err : SqliteErrorModel)
    (hf : f < params) (hv : args[f]? = some v) (hrej : e v (f + 1) = some err)
    (hacc : ∀ (n : Nat) (w : α), n < f → args[n]? = some w → e w (n + 1) = none) :
    (bindStatement e params args).result = some err ∧
    (∀ (j : Nat) (w : α), ((j, w) ∈ (bindStatement e params args).bound ↔
      1 ≤ j ∧ j ≤ f ∧ args[j - 1]? = some w)) ∧
    (bindStatement e params args).remaining = args.drop (f + 1) := by
  have hflen : f < args.length := by
    by_contra hge
    rw [List.getElem?_eq_none (by omega)] at hv
    exact Option.noConfusion hv
  have hrej' : e v (0 + 1 + f) = some err := by
    rwa [show 0 + 1 + f = f + 1 from by omega]
  have hacc' : ∀ (n : Nat) (w : α), n < f → args[n]? = some w → e w (0 + 1 + n) = none := by
    intro n w hn h
    rw [show 0 + 1 + n = n + 1 from by omega]
    exact hacc n w hn h
  have hmain : bindStatement e params args =
      ⟨expectedBinds 0 (args.take f), args.drop (f + 1), some err⟩ :=
    bindLoop_fail e f params 0 args v err hf hv hrej' hacc'
  rw [hmain]
  refine ⟨rfl, ?_, rfl⟩
  intro j w
  have htl : (args.take f).length = f := by
    rw [List.length_take]
    omega
  have h := expectedBinds_mem (args.take f) 0 j w
  simp only [Nat.zero_add, Nat.sub_zero, htl] at h
  rw [h]
  constructor
  · rintro ⟨h1, h2, h3⟩
    refine ⟨h1, h2, ?_⟩
    rwa [List.getElem?_take_of_lt (by omega)] at h3
  · rintro ⟨h1, h2, h3⟩
    refine ⟨h1, h2, ?_⟩
    rwa [List.getElem?_take_of_lt (by omega)]

/-- Witness for `bind_failure_keeps_earlier_binds`: 3 slots, arguments
10, 20, 30; the engine rejects value 20 at index 2 with error code 20.
The error propagates, value 10 at index 1 stays bound, and nothing was
bound at index 3. -/
theorem bind_failure_keeps_earlier_binds_witness :
    (bindStatement (fun (v : Nat) _ => if v = 20 then some ⟨20, []⟩ else none)
      3 [10, 20, 30]).result = some ⟨20, []⟩ ∧
    ((1 : Nat), (10 : Nat)) ∈ (bindStatement
      (fun (v : Nat) _ => if v = 20 then some ⟨20, []⟩ else none) 3 [10, 20, 30]).bound ∧
    ¬ ((3 : Nat), (30 : Nat)) ∈ (bindStatement
      (fun (v : Nat) _ => if v = 20 then some ⟨20, []⟩ else none) 3 [10, 20, 30]).bound := by
  have h := bind_failure_keeps_earlier_binds
    (fun (v : Nat) _ => if v = 20 then some ⟨20, []⟩ else none) 3 [10, 20, 30] 1 20 ⟨20, []⟩
    (by decide) (by decide) (by decide)
    (by
      intro n w hn hw
      have hn0 : n = 0 := by omega
      subst hn0
      have hw0 : 10 = w := by simpa using hw
      subst hw0
      decide)
  refine ⟨h.1, (h.2.1 1 10).mpr (by decide), ?_⟩
  intro hmem
  have := (h.2.1 3 30).mp hmem
  omega

end Sqlx

namespace Sqlx

/-- Lookup after a `HashMap` insert: the inserted key maps to the new
value; other keys are unaffected. -/
theorem hmLookup_hmInsert (m : List (List Char × Nat)) (k : List Char) (v : Nat)
    (n : List Char) :
    hmLookup (hmInsert m k v) n = if n = k then some v else hmLookup m n := by
  induction m with
  | nil =>
    show (if k = n then some v else hmLookup [] n) = if n = k then some v else hmLookup [] n
    by_cases h : k = n
    · subst h
      simp
    · simp [h, Ne.symm h]
  | cons p rest ih =>
    obtain ⟨k1, v1⟩ := p
    simp only [hmInsert]
    by_cases hk : k1 = k
    · subst hk
      simp only [if_pos rfl, hmLookup]
      by_cases hn : k1 = n
      · subst hn
        simp
      · simp [hn, Ne.symm hn]
    · rw [if_neg hk]
      simp only [hmLookup, ih]
      by_cases hn : k1 = n
      · subst hn
        simp [hk]
      · rw [if_neg hn]
        by_cases hnk : n = k
        · simp [hnk, hn]
        · simp [hnk, hn]

/-- A found last index really is an occurrence. -/
theorem findLastIdx_some (names : List (List Char)) :
    ∀ (n : List Char) (j : Nat), findLastIdx names n = some j → names[j]? = some n := by
  induction names with
  | nil =>
    intro n j h
    exact absurd h (by simp [findLastIdx])
  | cons x rest ih =>
    intro n j h
    simp only [findLastIdx] at h
    cases hf : findLastIdx rest n with
    | some j1 =>
      rw [hf] at h
      have hj : j1 + 1 = j := by injection h
      subst hj
      simpa using ih n j1 hf
    | none =>
      rw [hf] at h
      by_cases hx : x = n
      · rw [if_pos hx] at h
        have hj : (0 : Nat) = j := by injection h
        subst hj
        simpa using hx
      · rw [if_neg hx] at h
        exact Option.noConfusion h

/-- Searching with `findLastIdx` returns `none` exactly when the name occurs nowhere. -/
theorem findLastIdx_eq_none (names : List (List Char)) (n : List Char) :
    (findLastIdx names n = none ↔ ∀ j : Nat, names[j]? ≠ some n) := by
  induction names with
  | nil =>
    constructor
    · intro _ j
      simp
    · intro _
      rfl
  | cons x rest ih =>
    simp only [findLastIdx]
    cases hf : findLastIdx rest n with
    | some j =>
      constructor
      · intro h
        exact Option.noConfusion h
      · intro h
        have hocc := findLastIdx_some rest n j hf
        have := h (j + 1)
        simp only [List.getElem?_cons_succ] at this
        exact absurd hocc this
    | none =>
      by_cases hx : x = n
      · rw [if_pos hx]
        constructor
        · intro h
          exact Option.noConfusion h
        · intro h
          have h0 : (x :: rest)[0]? = some n := by
            rw [List.getElem?_cons_zero, hx]
          exact absurd h0 (h 0)
      · rw [if_neg hx]
        constructor
        · intro _ j
          cases j with
          | zero =>
            rw [List.getElem?_cons_zero]
            intro hh
            exact hx (by injection hh)
          | succ j =>
            rw [List.getElem?_cons_succ]
            exact (ih.mp hf) j
        · intro _
          rfl

/-- Here `findLastIdx names n = some j` exactly when `j` is an occurrence of `n`
and no later index is: the greatest occurrence. -/
theorem findLastIdx_spec (names : List (List Char)) :
    ∀ (n : List Char) (j : Nat), (findLastIdx names n = some j ↔
      names[j]? = some n ∧ ∀ k : Nat, j < k → names[k]? ≠ some n) := by
  induction names with
  | nil =>
    intro n j
    constructor
    · intro h
      exact absurd h (by simp [findLastIdx])
    · rintro ⟨h, _⟩
      exact absurd h (by simp)
  | cons x rest ih =>
    intro n j
    simp only [findLastIdx]
    cases hf : findLastIdx rest n with
    | some j1 =>
      have hspec := (ih n j1).mp hf
      constructor
      · intro h
        have hj : j1 + 1 = j := by injection h
        subst hj
        refine ⟨by simpa using hspec.1, ?_⟩
        intro k hk
        cases k with
        | zero => omega
        | succ k =>
          rw [List.getElem?_cons_succ]
          exact hspec.2 k (by omega)
      · rintro ⟨h1, h2⟩
        cases j with
        | zero =>
          have hocc : (x :: rest)[j1 + 1]? = some n := by simpa using hspec.1
          exact absurd hocc (h2 (j1 + 1) (by omega))
        | succ j0 =>
          have hrest2 : ∀ k : Nat, j0 < k → rest[k]? ≠ some n := by
            intro k hk
            have := h2 (k + 1) (by omega)
            simpa using this
          have hj0 : findLastIdx rest n = some j0 :=
            (ih n j0).mpr ⟨by simpa using h1, hrest2⟩
          rw [hf] at hj0
          have : j1 = j0 := by injection hj0
          rw [this]
    | none =>
      have hnone := (findLastIdx_eq_none rest n).mp hf
      by_cases hx : x = n
      · rw [if_pos hx]
        constructor
        · intro h
          have hj : (0 : Nat) = j := by injection h
          subst hj
          refine ⟨by simpa using hx, ?_⟩
          intro k hk
          cases k with
          | zero => omega
          | succ k =>
            rw [List.getElem?_cons_succ]
            exact hnone k
        · rintro ⟨h1, _⟩
          cases j with
          | zero => rfl
          | succ j0 => exact absurd (by simpa using h1) (hnone j0)
      · rw [if_neg hx]
        constructor
        · intro h
          exact Option.noConfusion h
        · rintro ⟨h1, _⟩
          cases j with
          | zero =>
            have : x = n := by simpa using h1
            exact absurd this hx
          | succ j0 => exact absurd (by simpa using h1) (hnone j0)

/-- What the column-map loop makes of lookups: a name maps to the base
index plus its LAST occurrence in the inserted names (later inserts
overwrite earlier ones), and names not inserted keep their prior value. -/
theorem hmLookup_insertColumns :
    ∀ (names : List (List Char)) (m : List (List Char × Nat)) (i : Nat) (n : List Char),
      hmLookup (insertColumns m i names) n =
        match findLastIdx names n with
        | some j => some (i + j)
        | none => hmLookup m n := by
  intro names
  induction names with
  | nil =>
    intro m i n
    rfl
  | cons x rest ih =>
    intro m i n
    simp only [insertColumns, findLastIdx]
    rw [ih (hmInsert m x i) (i + 1) n]
    cases hf : findLastIdx rest n with
    | some j =>
      show some (i + 1 + j) = some (i + (j + 1))
      rw [show i + 1 + j = i + (j + 1) from by omega]
    | none =>
      rw [hmLookup_hmInsert]
      by_cases hx : x = n
      · subst hx
        simp
      · simp [hx, Ne.symm hx]

end Sqlx

namespace Sqlx

/-- The key list of the association-list `HashMap` model. -/
def hmKeys (m : List (List Char × Nat)) : List (List Char) :=
  m.map Prod.fst

/-- Inserting an existing key keeps the key list; a new key is appended. -/
theorem hmKeys_hmInsert (m : List (List Char × Nat)) (k : List Char) (v : Nat) :
    hmKeys (hmInsert m k v) =
      if k ∈ hmKeys m then hmKeys m else hmKeys m ++ [k] := by
  induction m with
  | nil => simp [hmKeys, hmInsert]
  | cons p rest ih =>
    obtain ⟨k1, v1⟩ := p
    simp only [hmInsert]
    by_cases hk : k1 = k
    · subst hk
      rw [if_pos rfl]
      simp [hmKeys]
    · rw [if_neg hk]
      have hkeys : hmKeys ((k1, v1) :: rest) = k1 :: hmKeys rest := rfl
      show k1 :: hmKeys (hmInsert rest k v) = _
      rw [hkeys, ih]
      by_cases hmem : k ∈ hmKeys rest
      · rw [if_pos hmem, if_pos (List.mem_cons_of_mem _ hmem)]
      · have hknotin : k ∉ (k1 :: hmKeys rest) := by
          intro h
          rcases List.mem_cons.mp h with h1 | h1
          · exact hk h1.symm
          · exact hmem h1
        rw [if_neg hmem, if_neg hknotin]
        rfl

/-- A name is a key of the map after the column loop iff it was a key
before or occurs among the inserted names. -/
theorem mem_hmKeys_insertColumns :
    ∀ (names : List (List Char)) (m : List (List Char × Nat)) (i : Nat) (n : List Char),
      (n ∈ hmKeys (insertColumns m i names) ↔ n ∈ hmKeys m ∨ n ∈ names) := by
  intro names
  induction names with
  | nil =>
    intro m i n
    simp [insertColumns]
  | cons x rest ih =>
    intro m i n
    simp only [insertColumns]
    rw [ih]
    have hins : n ∈ hmKeys (hmInsert m x i) ↔ n ∈ hmKeys m ∨ n = x := by
      rw [hmKeys_hmInsert]
      by_cases hmem : x ∈ hmKeys m
      · rw [if_pos hmem]
        constructor
        · exact Or.inl
        · rintro (h | rfl)
          · exact h
          · exact hmem
      · rw [if_neg hmem]
        simp
    rw [hins]
    simp only [List.mem_cons]
    tauto

/-- The key list stays duplicate-free through the column loop. -/
theorem nodup_hmKeys_insertColumns :
    ∀ (names : List (List Char)) (m : List (List Char × Nat)) (i : Nat),
      (hmKeys m).Nodup → (hmKeys (insertColumns m i names)).Nodup := by
  intro names
  induction names with
  | nil =>
    intro m i h
    exact h
  | cons x rest ih =>
    intro m i h
    refine ih (hmInsert m x i) (i + 1) ?_
    rw [hmKeys_hmInsert]
    by_cases hmem : x ∈ hmKeys m
    · rw [if_pos hmem]
      exact h
    · rw [if_neg hmem]
      rw [List.nodup_append]
      refine ⟨h, List.nodup_singleton x, ?_⟩
      intro a ha hax
      rw [List.mem_singleton] at hax
      subst hax
      exact hmem ha

/-- The size of the column map equals the number of DISTINCT column
names. -/
theorem buildColumns_len (names : List (List Char)) :
    hmLen (buildColumns names) = names.dedup.length := by
  have hnodup : (hmKeys (buildColumns names)).Nodup :=
    nodup_hmKeys_insertColumns names [] 0 (by simp [hmKeys])
  have hmem : ∀ n, n ∈ hmKeys (buildColumns names) ↔ n ∈ names := by
    intro n
    show n ∈ hmKeys (insertColumns [] 0 names) ↔ n ∈ names
    rw [mem_hmKeys_insertColumns names [] 0 n]
    simp [hmKeys]
  have hperm : List.Perm (hmKeys (buildColumns names)) names.dedup := by
    rw [List.perm_ext_iff_of_nodup hnodup (List.nodup_dedup names)]
    intro a
    rw [hmem, List.mem_dedup]
  have hlen := hperm.length_eq
  simpa [hmLen, hmKeys] using hlen

end Sqlx

namespace Sqlx

/-- C5 (amended): for every successful compile the ColumnCatalog is built
once from the engine-reported column list (inserting `names[i] ↦ i` for
`i` in `[0, columnCount)`; as a pure function of the compile-time list it
never changes afterward); its size equals the number of DISTINCT column
names — which equals the engine-reported column count exactly when no two
columns share a name — and a lookup returns precisely the LAST index whose
column bears that name (the later index wins on duplicates). -/
theorem buildColumns_catalog (names : List (List Char)) :
    hmLen (buildColumns names) = names.dedup.length ∧
    (names.Nodup → hmLen (buildColumns names) = names.length) ∧
    (∀ (n : List Char) (j : Nat), (hmLookup (buildColumns names) n = some j ↔
      names[j]? = some n ∧ ∀ k : Nat, j < k → names[k]? ≠ some n)) := by
  refine ⟨buildColumns_len names, ?_, ?_⟩
  · intro hnd
    rw [buildColumns_len names, List.dedup_eq_self.mpr hnd]
  · intro n j
    have h : hmLookup (buildColumns names) n =
        match findLastIdx names n with
        | some j => some (0 + j)
        | none => hmLookup ([] : List (List Char × Nat)) n :=
      hmLookup_insertColumns names [] 0 n
    rw [h]
    cases hf : findLastIdx names n with
    | some j1 =>
      have hspec := (findLastIdx_spec names n j1).mp hf
      constructor
      · intro hh
        have hj : 0 + j1 = j := by injection hh
        have hj1 : j = j1 := by omega
        subst hj1
        exact hspec
      · rintro ⟨h1, h2⟩
        have hlast : findLastIdx names n = some j := (findLastIdx_spec names n j).mpr ⟨h1, h2⟩
        rw [hf] at hlast
        have : j1 = j := by injection hlast
        subst this
        show some (0 + j1) = some j1
        rw [Nat.zero_add]
    | none =>
      constructor
      · intro hh
        exact Option.noConfusion hh
      · rintro ⟨h1, h2⟩
        have hlast : findLastIdx names n = some j := (findLastIdx_spec names n j).mpr ⟨h1, h2⟩
        rw [hf] at hlast
        exact Option.noConfusion hlast

/-- C5 counterexample: a statement whose two columns both carry the name
"a" (e.g. `SELECT 1 AS a, 2 AS a`): the catalog built from the column
list has size 1, while the engine-reported column count is 2 — the
claimed "size equals the engine-reported column count" fails as soon as
two columns share a name. -/
theorem buildColumns_size_ne_count :
    hmLen (buildColumns [['a'], ['a']]) = 1 ∧ (1 : Nat) ≠ 2 := by
  decide

/-- Witness for `buildColumns_catalog` on the distinct column names
"id", "name": size 2 and lookup of "name" yields index 1. -/
theorem buildColumns_catalog_witness :
    hmLen (buildColumns [['i', 'd'], ['n', 'a', 'm', 'e']]) = 2 ∧
    hmLookup (buildColumns [['i', 'd'], ['n', 'a', 'm', 'e']]) ['n', 'a', 'm', 'e'] =
      some 1 := by
  have h := buildColumns_catalog [['i', 'd'], ['n', 'a', 'm', 'e']]
  refine ⟨h.2.1 (by decide), (h.2.2 ['n', 'a', 'm', 'e'] 1).mpr ⟨by decide, ?_⟩⟩
  intro k hk
  have hnone : ([['i', 'd'], ['n', 'a', 'm', 'e']] : List (List Char))[k]? = none := by
    apply List.getElem?_eq_none
    simp only [List.length_cons, List.length_nil]
    omega
  rw [hnone]
  exact fun hh => Option.noConfusion hh

end Sqlx

namespace Sqlx

/-- On a non-empty remainder the engine reports a tail of at least one
byte (the compiled statement is never empty). -/
theorem engineTail_pos (q : List Char) (h : q ≠ []) : 1 ≤ engineTail q := by
  cases hf : q.findIdx? (fun c => c = ';') with
  | some i =>
    have he : engineTail q = i + 1 := by
      unfold engineTail
      rw [hf]
    omega
  | none =>
    have he : engineTail q = q.length := by
      unfold engineTail
      rw [hf]
    rw [he]
    exact List.length_pos.mpr h

/-- Unfolding of one compile round of `splitTailsFuel` on a non-empty
remainder. -/
theorem splitTailsFuel_cons (fuel pos : Nat) (rest : List Char)
    (h : rest.isEmpty = false) :
    splitTailsFuel (fuel + 1) pos rest =
      (pos + engineTail rest) ::
        splitTailsFuel fuel
          (pos + engineTail rest +
            ((rest.drop (engineTail rest)).takeWhile rustIsWhitespace).length)
          (rustTrim (rest.drop (engineTail rest))) := by
  simp [splitTailsFuel, h]

/-- The iteration `splitTailsFuel` stops on an empty remainder. -/
theorem splitTailsFuel_empty (fuel pos : Nat) (rest : List Char)
    (h : rest.isEmpty = true) :
    splitTailsFuel (fuel + 1) pos rest = [] := by
  simp [splitTailsFuel, h]

/-- Every tail offset recorded by the compile iteration lies strictly
beyond the absolute start `pos` of the current remainder, and the offsets
strictly increase. -/
theorem splitTailsFuel_chain :
    ∀ (fuel pos : Nat) (rest : List Char),
      List.Chain' (fun a b => a < b) (splitTailsFuel fuel pos rest) ∧
      (∀ x ∈ splitTailsFuel fuel pos rest, pos < x) := by
  intro fuel
  induction fuel with
  | zero =>
    intro pos rest
    refine ⟨List.chain'_nil, ?_⟩
    intro x hx
    exact absurd hx (List.not_mem_nil x)
  | succ fuel ih =>
    intro pos rest
    by_cases hre : rest.isEmpty = true
    · rw [splitTailsFuel_empty fuel pos rest hre]
      refine ⟨List.chain'_nil, ?_⟩
      intro x hx
      exact absurd hx (List.not_mem_nil x)
    · have hre' : rest.isEmpty = false := by
        cases h : rest.isEmpty
        · rfl
        · exact absurd h hre
      have hne : rest ≠ [] := by
        intro h
        rw [h] at hre'
        exact Bool.noConfusion hre'
      have ht := engineTail_pos rest hne
      rw [splitTailsFuel_cons fuel pos rest hre']
      obtain ⟨ihc, ihm⟩ := ih
        (pos + engineTail rest +
          ((rest.drop (engineTail rest)).takeWhile rustIsWhitespace).length)
        (rustTrim (rest.drop (engineTail rest)))
      constructor
      · rw [List.chain'_cons']
        refine ⟨?_, ihc⟩
        intro y hy
        have hmem := List.mem_of_mem_head? hy
        have := ihm y hmem
        omega
      · intro x hx
        rcases List.mem_cons.mp hx with rfl | hx1
        · omega
        · have := ihm x hx1
          omega

/-- C6: for every source buffer, the absolute tail offsets recorded by
successive successful compiles over that buffer strictly increase; for
the input `"SELECT 1;SELECT 2;"` the first compile's tail is 9 — pointing
exactly at `"SELECT 2;"` — and the second compile's tail is 18, the end
of the input. -/
theorem successiveTails_strictly_increasing (buf : List Char) :
    List.Chain' (fun a b => a < b) (successiveTails buf) ∧
    successiveTails ("SELECT 1;SELECT 2;".toList) = [9, 18] ∧
    ("SELECT 1;SELECT 2;".toList).drop 9 = "SELECT 2;".toList ∧
    ("SELECT 1;SELECT 2;".toList).length = 18 := by
  refine ⟨(splitTailsFuel_chain buf.length 0 buf).1, ?_, ?_, ?_⟩ <;> decide

end Sqlx

namespace Sqlx

/-- C8: in the Worker model, every reachable state satisfies
`executed ++ queue = submitted`: the engine-observed execution order
(`executed`, produced one unit at a time by the connection's single
worker thread) is exactly the submission order of the completed prefix —
whichever concurrent tasks or `Statement` objects submitted the units —
and the pending FIFO queue continues that order, so no two operations are
ever reordered or interleaved. -/
theorem worker_fifo {α : Type} (w : WorkerState α) (h : WorkerReachable w) :
    w.executed ++ w.queue = w.submitted := by
  induction h with
  | refl => rfl
  | tail hreach hstep ih =>
    cases hstep with
    | submit s q e u =>
      show e ++ (q ++ [u]) = s ++ [u]
      rw [← List.append_assoc]
      show (WorkerState.mk s q e).executed ++ (WorkerState.mk s q e).queue ++ [u] = s ++ [u]
      rw [ih]
    | exec s q e u =>
      show (e ++ [u]) ++ q = s
      rw [List.append_assoc]
      exact ih

/-- Witness for `worker_fifo`: the state reached by submitting units 0
then 1 and executing the first satisfies the FIFO invariant. -/
theorem worker_fifo_witness :
    (⟨[0, 1], [1], [0]⟩ : WorkerState Nat).executed ++
      (⟨[0, 1], [1], [0]⟩ : WorkerState Nat).queue =
      (⟨[0, 1], [1], [0]⟩ : WorkerState Nat).submitted := by
  apply worker_fifo
  have s1 : WorkerStep (⟨[], [], []⟩ : WorkerState Nat) ⟨[0], [0], []⟩ :=
    WorkerStep.submit [] [] [] 0
  have s2 : WorkerStep (⟨[0], [0], []⟩ : WorkerState Nat) ⟨[0, 1], [0, 1], []⟩ :=
    WorkerStep.submit [0] [0] [] 1
  have s3 : WorkerStep (⟨[0, 1], [0, 1], []⟩ : WorkerState Nat) ⟨[0, 1], [1], [0]⟩ :=
    WorkerStep.exec [0, 1] [1] [] 0
  exact Relation.ReflTransGen.tail (Relation.ReflTransGen.tail
    (Relation.ReflTransGen.tail Relation.ReflTransGen.refl s1) s2) s3

end Sqlx

namespace Sqlx

/-- Witness for `step_status_dispatch` at the three concrete statuses
101 (`SQLITE_DONE`), 100 (`SQLITE_ROW`) and 5 (`SQLITE_BUSY`): `Done`,
`Row`, and an error carrying the connection diagnostic. -/
theorem step_status_dispatch_witness :
    stepResult 101 ⟨0, []⟩ = Except.ok Step.Done ∧
    stepResult 100 ⟨0, []⟩ = Except.ok Step.Row ∧
    stepResult 5 ⟨5, ['b']⟩ = Except.error ⟨5, ['b']⟩ :=
  ⟨(step_status_dispatch 101 ⟨0, []⟩).1.mpr (by decide),
   (step_status_dispatch 100 ⟨0, []⟩).2.1.mpr (by decide),
   (step_status_dispatch 5 ⟨5, ['b']⟩).2.2 (by decide) (by decide)⟩

/-- Witness for `advanceQuery_trims_both_ends`: on source `"X; A "` with
tail 2 the remaining text is `"A"`, whose head is not whitespace. -/
theorem advanceQuery_trims_both_ends_witness :
    rustIsWhitespace 'A' = false := by
  obtain ⟨pre, post, _, _, _, hhead, _⟩ :=
    advanceQuery_trims_both_ends ['X', ';', ' ', 'A', ' '] 2
  exact hhead 'A' rfl

end Sqlx
